import Mathlib

/-!
Verification of the flamegraph filter pipeline (flamegraph_filter.cpp).

Modelling conventions (shallow embedding):

* A text line is a list of characters (List Char); the input file is the list
  of its lines, which is what the code's line-reading loop produces.
* std::string::find_last_of is findLastOf, returning Option Nat (none models
  npos).  std::string::rfind with a start position is rfindFrom; the position
  is clamped to the last index exactly as in the C++ standard.
* std::string::substr(pos) is List.drop, substr(pos, len) is drop then take;
  a length argument that underflowed (size_t wraparound produces a huge value
  which substr clamps to the rest of the string) is modelled by taking the
  whole rest.  substr throwing std::out_of_range when pos is npos is modelled
  by get_sample_count returning none, which the pipeline propagates as an
  Except.error, reaching the catch block in main (exit code 1).
* atoi is atoiChars: skip C whitespace, optional sign, leading decimal
  digits, 0 when no digit follows; the int result is converted to size_t
  modulo 2 ^ 64 exactly as the implicit conversion does.  Sample counts and
  their sums are otherwise modelled as unbounded naturals: no claim below
  concerns size_t wraparound of accumulated totals.
* std::map<std::string, ...> is an association list kept strictly sorted by
  the key under lexicographic order on characters (lexLt), which is what
  operator< on std::string computes; mapInsert is the sorted insert /
  in-place update, mlookup is find.
* double arithmetic is modelled exactly over the rationals.  The literal
  0.01 is exactly 1/100 in this model.  Division by a zero total, NaN in
  C++, is the rational 0 here: for any nonnegative cutoff both make the
  strict comparison false, so every group is dropped, which is the
  behaviour the relevant claims are about.
* std::regex is kept abstract: the filter is parameterised over a compile
  function (Except models the regex_error exception) and a match predicate,
  since the claims are about when patterns are compiled and how failures
  propagate, not about the regex language itself.
-/

/-- A line of text, and also a stack-frame name or a regex pattern source. -/
abbrev Line := List Char

/-- The value stored for one leaf frame: total sample count and the member
lines, in first-occurrence order. -/
abbrev LeafGroup := Nat × List Line

/-- One node of the ordered map: key (leaf frame name) and its group. -/
abbrev Entry := Line × LeafGroup

/-- Index of the last occurrence of a character, none for npos
(std::string::find_last_of). -/
def findLastOf (s : List Char) (c : Char) : Option Nat :=
  match s with
  | [] => none
  | a :: t =>
    match findLastOf t c with
    | some i => some (i + 1)
    | none => if a = c then some 0 else none

/-- Character class of the C isspace used by atoi. -/
def isCSpace (c : Char) : Bool :=
  c = ' ' || c = '\t' || c = '\n' || c = '\r' || c = '\x0b' || c = '\x0c'

/-- Value of a string of decimal digits. -/
def decimalVal (ds : List Char) : Nat :=
  ds.foldl (fun a c => a * 10 + (c.toNat - 48)) 0

/-- Behaviour of atoi: skip C whitespace, optional sign, then the longest
run of decimal digits; zero when there are none. -/
def atoiChars (s : List Char) : Int :=
  let t := s.dropWhile isCSpace
  match t with
  | '-' :: r => - (decimalVal (r.takeWhile Char.isDigit) : Int)
  | '+' :: r => (decimalVal (r.takeWhile Char.isDigit) : Int)
  | _ => (decimalVal (t.takeWhile Char.isDigit) : Int)

/-- Whether a string starts with a decimal digit. -/
def headIsDigit : List Char → Bool
  | [] => false
  | c :: _ => c.isDigit

/-- Removal of the single optional sign character that atoi accepts after
the whitespace. -/
def dropSign : List Char → List Char
  | [] => []
  | c :: r => if c == '-' || c == '+' then r else c :: r

/-- The exact failure condition of the atoi conversion: after skipping C
whitespace and at most one sign character, no digit follows, so atoi
consumes no digit and performs no conversion.  Tokens such as x5, -x5 or a
lone sign all satisfy this; a token with leading digits, such as 12ab,
does not. -/
def atoiFails (s : List Char) : Bool :=
  !(headIsDigit (dropSign (s.dropWhile isCSpace)))

/-- Leaf frame of a folded line: the text after the last semicolon and
before the last space (get_lowest_stack in the source; the substr length
underflows to huge, hence is clamped, when the last space is left of that
point or there is no space). -/
def get_lowest_stack (s : Line) : Line :=
  let loc : Nat :=
    match findLastOf s ';' with
    | some i => i + 1
    | none => 0
  match findLastOf s ' ' with
  | some j => if j < loc then s.drop loc else (s.drop loc).take (j - loc)
  | none => s.drop loc

/-- Sample count of a folded line (get_sample_count in the source): atoi of
the substring from the last space on; none models the std::out_of_range
thrown by substr when the line has no space, and the int result is
converted to size_t modulo 2 ^ 64. -/
def get_sample_count (s : Line) : Option Nat :=
  match findLastOf s ' ' with
  | none => none
  | some j => some (((atoiChars (s.drop j)).emod (2 ^ 64)).toNat)

/-- Sample count with the zero default; only used to state aggregate sums
over lines that are known to parse. -/
def countOf (line : Line) : Nat := (get_sample_count line).getD 0

/-- Lexicographic comparison of character lists, the order computed by
operator< on std::string and used by the std::map. -/
def lexLt : List Char → List Char → Bool
  | [], [] => false
  | [], _ :: _ => true
  | _ :: _, [] => false
  | a :: s, b :: t => if a < b then true else if b < a then false else lexLt s t

/-- Lookup in the ordered map (std::map::find). -/
def mlookup (k : Line) : List Entry → Option LeafGroup
  | [] => none
  | e :: t => if k = e.1 then some e.2 else mlookup k t

/-- The map update performed for one parsed line: add the count and append
the line if the leaf is present, otherwise insert a fresh group at the
sorted position. -/
def mapInsert (k : Line) (cnt : Nat) (line : Line) : List Entry → List Entry
  | [] => [(k, cnt, [line])]
  | e :: t =>
    if k = e.1 then (e.1, e.2.1 + cnt, e.2.2 ++ [line]) :: t
    else if lexLt k e.1 then (k, cnt, [line]) :: e :: t
    else e :: mapInsert k cnt line t

/-- Loop body of build_stack_map over the remaining lines; an unparseable
line (no space, so substr throws) aborts with an error. -/
def buildGo : List Entry → List Line → Except String (List Entry)
  | m, [] => .ok m
  | m, line :: rest =>
    match get_sample_count line with
    | none => .error "basic_string substr out of range"
    | some cnt => buildGo (mapInsert (get_lowest_stack line) cnt line m) rest

/-- Builds the map from leaf frame to (total samples, member lines) from the
lines of the input file (build_stack_map in the source). -/
def build_stack_map (lines : List Line) : Except String (List Entry) :=
  buildGo [] lines

/-- Total-function companion of buildGo, defined on all inputs; it agrees
with buildGo whenever every line parses. -/
def buildPure : List Entry → List Line → List Entry
  | m, [] => m
  | m, line :: rest =>
    buildPure (mapInsert (get_lowest_stack line) (countOf line) line m) rest

/-- Sum of the per-group totals, the total_samples accumulation of
filter_stack. -/
def sumTotals (m : List Entry) : Nat := (m.map (fun e => e.2.1)).sum

/-- Leaf frame used for pattern matching: get_lowest_stack of the first
member line (the member list is never empty for a built group). -/
def frameOf (g : LeafGroup) : Line := get_lowest_stack (g.2.headD [])

/-- The inner pattern loop of filter_stack: compile each pattern in order
(a compile failure is the thrown std::regex_error), stop at the first full
match. -/
def scanPatterns {R : Type} (compile : Line → Except String R)
    (rmatch : R → Line → Bool) (frame : Line) :
    List Line → Except String Bool
  | [] => .ok false
  | p :: ps =>
    match compile p with
    | .error e => .error e
    | .ok r =>
      if rmatch r frame then .ok true
      else scanPatterns compile rmatch frame ps

/-- Per-entry loop of filter_stack: keep a group when its share of the total
strictly exceeds 0.01 * cutoff and, when patterns were given, its leaf frame
matches one of them. -/
def filterGo {R : Type} (compile : Line → Except String R)
    (rmatch : R → Line → Bool) (total : Nat) (cutoff : ℚ)
    (regexes : List Line) : List Entry → Except String (List LeafGroup)
  | [] => .ok []
  | e :: rest =>
    if (e.2.1 : ℚ) / (total : ℚ) > 0.01 * cutoff then
      if regexes.isEmpty then
        match filterGo compile rmatch total cutoff regexes rest with
        | .error err => .error err
        | .ok out => .ok (e.2 :: out)
      else
        match scanPatterns compile rmatch (frameOf e.2) regexes with
        | .error err => .error err
        | .ok true =>
          match filterGo compile rmatch total cutoff regexes rest with
          | .error err => .error err
          | .ok out => .ok (e.2 :: out)
        | .ok false => filterGo compile rmatch total cutoff regexes rest
    else filterGo compile rmatch total cutoff regexes rest

/-- The significance filter (filter_stack in the source): compute the grand
total, then keep the values of the qualifying entries in map order. -/
def filter_stack {R : Type} (compile : Line → Except String R)
    (rmatch : R → Line → Bool) (stack_map : List Entry)
    (cutoff_percentage : ℚ) (regexes_to_show : List Line) :
    Except String (List LeafGroup) :=
  filterGo compile rmatch (sumTotals stack_map) cutoff_percentage
    regexes_to_show stack_map

/-- std::string::rfind(c, pos): index of the last occurrence at position at
most pos (the standard clamps pos to the last index). -/
def rfindFrom (s : Line) (c : Char) (pos : Nat) : Option Nat :=
  findLastOf (s.take (pos + 1)) c

/-- The backward-search loop of shrink_to_stack_limit: up to limit steps of
rfind(';', current - 1), stopping early at npos.  When current is 0 the
size_t subtraction wraps around to npos, which rfind clamps to the last
index, hence the whole string is searched again in that case. -/
def shrinkPos (s : Line) : Nat → Nat → Option Nat
  | 0, p => some p
  | i + 1, p =>
    match rfindFrom s ';' (if p = 0 then s.length else p - 1) with
    | none => none
    | some q => shrinkPos s i q

/-- Truncation of one member line: run the backward search from the end; if
it ends at a delimiter position (not npos) keep only the text after it. -/
def shrinkLine (limit : Nat) (s : Line) : Line :=
  match shrinkPos s limit s.length with
  | none => s
  | some p => s.drop (p + 1)

/-- The depth truncator (shrink_to_stack_limit in the source): the identity
for a zero limit, otherwise every member line of every group is truncated
in place. -/
def shrink_to_stack_limit (stackList : List LeafGroup) (stack_limit : Nat) :
    List LeafGroup :=
  if stack_limit = 0 then stackList
  else stackList.map (fun g => (g.1, g.2.map (shrinkLine stack_limit)))

/-- The writer (write_filtered_stack_to_file in the source): each member
line of each group, group order then member order, one output line each. -/
def write_filtered_stack_to_file (stackList : List LeafGroup) : List Line :=
  (stackList.map (fun g => g.2)).flatten

/-- The pipeline of main: build, filter, truncate, write; the first error
escapes as the exception caught at top level. -/
def runPipeline {R : Type} (compile : Line → Except String R)
    (rmatch : R → Line → Bool) (lines : List Line) (cutoff : ℚ)
    (stack_limit : Nat) (regexes : List Line) : Except String (List Line) :=
  match build_stack_map lines with
  | .error e => .error e
  | .ok m =>
    match filter_stack compile rmatch m cutoff regexes with
    | .error e => .error e
    | .ok f => .ok (write_filtered_stack_to_file (shrink_to_stack_limit f stack_limit))

/-- Exit code of main around the pipeline: 0 on success, 1 when a thrown
std::exception reaches the catch block. -/
def mainExitCode {R : Type} (compile : Line → Except String R)
    (rmatch : R → Line → Bool) (lines : List Line) (cutoff : ℚ)
    (stack_limit : Nat) (regexes : List Line) : Nat :=
  match runPipeline compile rmatch lines cutoff stack_limit regexes with
  | .ok _ => 0
  | .error _ => 1

/-- Ascending list of the delimiter positions of a line. -/
def semiIdxs : Line → List Nat
  | [] => []
  | c :: t => (if c = ';' then [0] else []) ++ (semiIdxs t).map (· + 1)

/-- Truncation as the specification words it: drop everything up to and
including the stack_limit-th delimiter counted backward from the end, and
leave the line unchanged when it has fewer than stack_limit delimiters. -/
def truncSpec (limit : Nat) (s : Line) : Line :=
  match ((semiIdxs s).reverse)[limit - 1]? with
  | some p => s.drop (p + 1)
  | none => s

/-- Well-formed folded line: it has a space and every delimiter precedes
the last space (the trailing count token contains no delimiter). -/
def wfLine (s : Line) : Bool :=
  match findLastOf s ' ', findLastOf s ';' with
  | some a, some b => decide (b < a)
  | some _, none => true
  | none, _ => false

/-- The std::map invariant: entries strictly sorted by key. -/
def mapSorted (m : List Entry) : Prop :=
  m.Pairwise (fun a b => lexLt a.1 b.1 = true)

/-- The input lines whose leaf frame is a given name, in file order. -/
def leafLines (k : Line) (lines : List Line) : List Line :=
  lines.filter (fun l => decide (get_lowest_stack l = k))

/-- How one leaf's group grows across a run of lines, starting from an
optional existing group. -/
def combineG : Option LeafGroup → List Line → Option LeafGroup
  | none, [] => none
  | none, ms => some ((ms.map countOf).sum, ms)
  | some g, ms => some (g.1 + (ms.map countOf).sum, g.2 ++ ms)

/-- A trivial regex engine used for concrete runs without patterns. -/
def noRegex : Line → Except String Unit := fun _ => Except.ok ()

/-- Match predicate of the trivial engine. -/
def noMatch : Unit → Line → Bool := fun _ _ => false

/-- A tiny concrete regex engine for the pattern claims: the single
pattern consisting of one opening parenthesis fails to compile, as it does
under the ECMAScript grammar of std::regex; any other pattern compiles to
itself and matches exactly its own text. -/
def egCompile : Line → Except String Line := fun p =>
  if p = ("(").toList then Except.error "regex_error" else Except.ok p

/-- Match predicate of the tiny engine: the frame must equal the pattern
text (a full match, as std::regex_match requires). -/
def egMatch : Line → Line → Bool := fun r s => decide (r = s)

instance (priority := low) {α : Type} [DecidableEq α] :
    DecidableEq (Except String α) := fun a b =>
  match a, b with
  | .ok x, .ok y => if h : x = y then isTrue (by rw [h]) else isFalse (by simp [h])
  | .error e, .error f => if h : e = f then isTrue (by rw [h]) else isFalse (by simp [h])
  | .ok _, .error _ => isFalse (by simp)
  | .error _, .ok _ => isFalse (by simp)

/-! Lemmas about the lexicographic order. -/

theorem lexLt_cons (x y : Char) (s t : List Char) :
    lexLt (x :: s) (y :: t) =
      if x < y then true else if y < x then false else lexLt s t := rfl

theorem lexLt_irrefl (s : List Char) : lexLt s s = false := by
  induction s with
  | nil => rfl
  | cons a t ih => simp [lexLt_cons, ih]

theorem lexLt_asymm {a b : List Char} (h : lexLt a b = true) : lexLt b a = false := by
  induction a generalizing b with
  | nil =>
    cases b with
    | nil => simp [lexLt] at h
    | cons x t => rfl
  | cons x s ih =>
    cases b with
    | nil => simp [lexLt] at h
    | cons y t =>
      rw [lexLt_cons] at h ⊢
      by_cases hxy : x < y
      · have hny : ¬ y < x := fun hc => absurd hxy (lt_asymm hc)
        rw [if_neg hny, if_pos hxy]
      · rw [if_neg hxy] at h
        by_cases hyx : y < x
        · rw [if_pos hyx] at h
          exact absurd h (by simp)
        · rw [if_neg hyx] at h
          rw [if_neg hyx, if_neg hxy]
          exact ih h

theorem lexLt_trans {a b c : List Char} (hab : lexLt a b = true)
    (hbc : lexLt b c = true) : lexLt a c = true := by
  induction a generalizing b c with
  | nil =>
    cases b with
    | nil => simp [lexLt] at hab
    | cons y t =>
      cases c with
      | nil => simp [lexLt] at hbc
      | cons z u => rfl
  | cons x s ih =>
    cases b with
    | nil => simp [lexLt] at hab
    | cons y t =>
      cases c with
      | nil => simp [lexLt] at hbc
      | cons z u =>
        rw [lexLt_cons] at hab hbc ⊢
        by_cases hxy : x < y
        · rw [if_pos hxy] at hab
          by_cases hyz : y < z
          · rw [if_pos (lt_trans hxy hyz)]
          · rw [if_neg hyz] at hbc
            by_cases hzy : z < y
            · rw [if_pos hzy] at hbc
              exact absurd hbc (by simp)
            · have hyez : y = z := le_antisymm (not_lt.mp hzy) (not_lt.mp hyz)
              rw [if_pos (hyez ▸ hxy)]
        · rw [if_neg hxy] at hab
          by_cases hyx : y < x
          · rw [if_pos hyx] at hab
            exact absurd hab (by simp)
          · rw [if_neg hyx] at hab
            have hxey : x = y := le_antisymm (not_lt.mp hyx) (not_lt.mp hxy)
            rw [hxey]
            by_cases hyz : y < z
            · rw [if_pos hyz]
            · rw [if_neg hyz] at hbc ⊢
              by_cases hzy : z < y
              · rw [if_pos hzy] at hbc
                exact absurd hbc (by simp)
              · rw [if_neg hzy] at hbc
                rw [if_neg hzy]
                exact ih hab hbc

theorem lexLt_eq_of_not {a b : List Char} (h1 : lexLt a b = false)
    (h2 : lexLt b a = false) : a = b := by
  induction a generalizing b with
  | nil =>
    cases b with
    | nil => rfl
    | cons y t => simp [lexLt] at h1
  | cons x s ih =>
    cases b with
    | nil => simp [lexLt] at h2
    | cons y t =>
      rw [lexLt_cons] at h1 h2
      by_cases hxy : x < y
      · rw [if_pos hxy] at h1
        exact absurd h1 (by simp)
      · by_cases hyx : y < x
        · rw [if_pos hyx] at h2
          exact absurd h2 (by simp)
        · rw [if_neg hxy, if_neg hyx] at h1
          rw [if_neg hyx, if_neg hxy] at h2
          have hxey : x = y := le_antisymm (not_lt.mp hyx) (not_lt.mp hxy)
          rw [hxey, ih h1 h2]

theorem lexLt_ne {a b : List Char} (h : lexLt a b = true) : a ≠ b := by
  intro hab
  rw [hab, lexLt_irrefl] at h
  exact Bool.false_ne_true h

/-! Lemmas about the ordered map. -/


theorem mapSorted_nil : mapSorted [] := List.Pairwise.nil

theorem mapInsert_mem {m : List Entry} {k : Line} {cnt : Nat} {line : Line}
    {e : Entry} (h : e ∈ mapInsert k cnt line m) : e.1 = k ∨ e ∈ m := by
  induction m with
  | nil =>
    simp [mapInsert] at h
    left
    rw [h]
  | cons e0 t ih =>
    rw [mapInsert] at h
    by_cases hk : k = e0.1
    · rw [if_pos hk] at h
      rcases List.mem_cons.mp h with h1 | h1
      · subst hk
        left
        rw [h1]
      · right
        exact List.mem_cons_of_mem _ h1
    · rw [if_neg hk] at h
      by_cases hlt : lexLt k e0.1
      · rw [if_pos hlt] at h
        rcases List.mem_cons.mp h with h1 | h1
        · left
          rw [h1]
        · right
          exact h1
      · rw [if_neg hlt] at h
        rcases List.mem_cons.mp h with h1 | h1
        · right
          exact List.mem_cons.mpr (Or.inl h1)
        · rcases ih h1 with h2 | h2
          · left
            exact h2
          · right
            exact List.mem_cons_of_mem _ h2

theorem mapInsert_sorted {m : List Entry} {k : Line} {cnt : Nat} {line : Line}
    (hs : mapSorted m) : mapSorted (mapInsert k cnt line m) := by
  induction m with
  | nil => simp [mapInsert, mapSorted]
  | cons e0 t ih =>
    rcases List.pairwise_cons.mp hs with ⟨h0, ht⟩
    rw [mapInsert]
    by_cases hk : k = e0.1
    · rw [if_pos hk]
      exact List.pairwise_cons.mpr ⟨h0, ht⟩
    · rw [if_neg hk]
      by_cases hlt : lexLt k e0.1
      · rw [if_pos hlt]
        refine List.pairwise_cons.mpr ⟨?_, List.pairwise_cons.mpr ⟨h0, ht⟩⟩
        intro e he
        rcases List.mem_cons.mp he with h1 | h1
        · rw [h1]
          exact hlt
        · exact lexLt_trans hlt (h0 e h1)
      · rw [if_neg hlt]
        refine List.pairwise_cons.mpr ⟨?_, ih ht⟩
        intro e he
        rcases mapInsert_mem he with h1 | h1
        · rw [h1]
          by_cases h2 : lexLt e0.1 k
          · exact h2
          · exfalso
            have hq : lexLt e0.1 k = false := by
              cases hb : lexLt e0.1 k
              · rfl
              · exact absurd hb h2
            have hr : lexLt k e0.1 = false := by
              cases hb : lexLt k e0.1
              · rfl
              · exact absurd hb hlt
            exact hk (lexLt_eq_of_not hq hr).symm
        · exact h0 e h1

theorem mlookup_some_mem {m : List Entry} {k : Line} {g : LeafGroup}
    (h : mlookup k m = some g) : (k, g) ∈ m := by
  induction m with
  | nil => simp [mlookup] at h
  | cons e0 t ih =>
    rw [mlookup] at h
    by_cases hk : k = e0.1
    · rw [if_pos hk] at h
      have : e0 = (k, g) := by
        cases e0
        simp at hk h
        rw [hk, h]
      rw [← this]
      exact List.mem_cons_self _ _
    · rw [if_neg hk] at h
      exact List.mem_cons_of_mem _ (ih h)

theorem mlookup_none_iff {m : List Entry} {k : Line} :
    mlookup k m = none ↔ k ∉ m.map Prod.fst := by
  induction m with
  | nil => simp [mlookup]
  | cons e0 t ih =>
    rw [mlookup]
    by_cases hk : k = e0.1
    · rw [if_pos hk]
      simp [hk]
    · rw [if_neg hk]
      simp [hk, ih]

theorem mem_mlookup {m : List Entry} {k : Line} {g : LeafGroup}
    (hs : mapSorted m) (h : (k, g) ∈ m) : mlookup k m = some g := by
  induction m with
  | nil => simp at h
  | cons e0 t ih =>
    rcases List.pairwise_cons.mp hs with ⟨h0, ht⟩
    rcases List.mem_cons.mp h with h1 | h1
    · rw [mlookup, ← h1]
      simp
    · rw [mlookup]
      by_cases hk : k = e0.1
      · exfalso
        have := h0 _ h1
        exact lexLt_ne this (by rw [hk])
      · rw [if_neg hk]
        exact ih ht h1

theorem mlookup_head_none {e0 : Entry} {t : List Entry}
    (hs : mapSorted (e0 :: t)) : mlookup e0.1 t = none := by
  rcases List.pairwise_cons.mp hs with ⟨h0, _⟩
  rw [mlookup_none_iff]
  intro hc
  rcases List.mem_map.mp hc with ⟨e, he, hke⟩
  exact lexLt_ne (h0 e he) hke.symm

theorem mapExt {m m' : List Entry} (hs : mapSorted m) (hs' : mapSorted m')
    (h : ∀ k, mlookup k m = mlookup k m') : m = m' := by
  induction m generalizing m' with
  | nil =>
    cases m' with
    | nil => rfl
    | cons e0 t =>
      have := h e0.1
      rw [mlookup] at this
      simp [mlookup] at this
  | cons e0 t ih =>
    cases m' with
    | nil =>
      have := h e0.1
      rw [mlookup] at this
      simp [mlookup] at this
    | cons e1 t' =>
      have hkey : e0.1 = e1.1 := by
        by_contra hne
        have hl0 : mlookup e0.1 (e1 :: t') = some e0.2 := by
          rw [← h e0.1, mlookup, if_pos rfl]
        have hl1 : mlookup e1.1 (e0 :: t) = some e1.2 := by
          rw [h e1.1, mlookup, if_pos rfl]
        have hm0 : (e0.1, e0.2) ∈ e1 :: t' := mlookup_some_mem hl0
        have hm1 : (e1.1, e1.2) ∈ e0 :: t := mlookup_some_mem hl1
        rcases List.mem_cons.mp hm0 with hc | hc
        · exact hne (by rw [← hc])
        · rcases List.mem_cons.mp hm1 with hd | hd
          · exact hne (by rw [← hd])
          · rcases List.pairwise_cons.mp hs with ⟨h0, _⟩
            rcases List.pairwise_cons.mp hs' with ⟨h1, _⟩
            have ha := h1 _ hc
            have hb := h0 _ hd
            exact Bool.false_ne_true ((lexLt_asymm ha) ▸ hb)
      have hval : e0.2 = e1.2 := by
        have h0 := h e0.1
        rw [mlookup, if_pos rfl, mlookup, if_pos (by rw [hkey])] at h0
        exact Option.some.inj h0
      have htails : t = t' := by
        refine ih (List.pairwise_cons.mp hs).2 (List.pairwise_cons.mp hs').2 ?_
        intro k
        by_cases hk : k = e0.1
        · rw [hk, mlookup_head_none hs, hkey, mlookup_head_none hs']
        · have := h k
          rw [mlookup, if_neg hk, mlookup, if_neg (by rw [← hkey]; exact hk)] at this
          exact this
      have : e0 = e1 := by
        cases e0
        cases e1
        simp at hkey hval
        rw [hkey, hval]
      rw [this, htails]

theorem mlookup_insert_ne {m : List Entry} {k k' : Line} {cnt : Nat}
    {line : Line} (h : k' ≠ k) :
    mlookup k' (mapInsert k cnt line m) = mlookup k' m := by
  induction m with
  | nil => simp [mapInsert, mlookup, h]
  | cons e0 t ih =>
    rw [mapInsert]
    by_cases hk : k = e0.1
    · rw [if_pos hk, mlookup, mlookup]
      have hne : k' ≠ e0.1 := fun hc => h (hc.trans hk.symm)
      rw [if_neg hne, if_neg hne]
    · rw [if_neg hk]
      by_cases hlt : lexLt k e0.1
      · rw [if_pos hlt, mlookup, if_neg h]
      · rw [if_neg hlt, mlookup, mlookup]
        by_cases hk' : k' = e0.1
        · rw [if_pos hk', if_pos hk']
        · rw [if_neg hk', if_neg hk', ih]

theorem mlookup_insert_self {m : List Entry} {k : Line} {cnt : Nat}
    {line : Line} (hs : mapSorted m) :
    mlookup k (mapInsert k cnt line m) =
      some (match mlookup k m with
            | none => (cnt, [line])
            | some g => (g.1 + cnt, g.2 ++ [line])) := by
  induction m with
  | nil => simp [mapInsert, mlookup]
  | cons e0 t ih =>
    rcases List.pairwise_cons.mp hs with ⟨h0, ht⟩
    rw [mapInsert]
    by_cases hk : k = e0.1
    · rw [if_pos hk, mlookup, if_pos hk, mlookup, if_pos hk]
    · rw [if_neg hk]
      by_cases hlt : lexLt k e0.1
      · rw [if_pos hlt, mlookup, if_pos rfl]
        have hnone : mlookup k (e0 :: t) = none := by
          rw [mlookup_none_iff]
          intro hc
          rcases List.mem_map.mp hc with ⟨e, he, hke⟩
          rcases List.mem_cons.mp he with h1 | h1
          · exact hk (by rw [← hke, h1])
          · have := h0 e h1
            have htr := lexLt_trans hlt this
            exact lexLt_ne htr hke.symm
        rw [hnone]
      · rw [if_neg hlt, mlookup, if_neg hk, mlookup, if_neg hk]
        exact ih ht

/-! Characterisation of the aggregation stage. -/



theorem buildPure_sorted {m : List Entry} (lines : List Line)
    (hs : mapSorted m) : mapSorted (buildPure m lines) := by
  induction lines generalizing m with
  | nil => exact hs
  | cons l rest ih => exact ih (mapInsert_sorted hs)

theorem buildPure_lookup {lines : List Line} {m : List Entry} {k : Line}
    (hs : mapSorted m) :
    mlookup k (buildPure m lines) = combineG (mlookup k m) (leafLines k lines) := by
  induction lines generalizing m with
  | nil =>
    rw [buildPure]
    cases h : mlookup k m
    · simp [leafLines, combineG]
    · simp [leafLines, combineG]
  | cons l rest ih =>
    rw [buildPure, ih (mapInsert_sorted hs)]
    by_cases hk : get_lowest_stack l = k
    · rw [hk, mlookup_insert_self hs]
      have hf : leafLines k (l :: rest) = l :: leafLines k rest := by
        simp [leafLines, List.filter_cons, hk]
      rw [hf]
      cases h : mlookup k m
      · simp [combineG]
      · simp [combineG, Nat.add_assoc]
    · rw [mlookup_insert_ne (fun hc => hk hc.symm)]
      have hf : leafLines k (l :: rest) = leafLines k rest := by
        simp [leafLines, List.filter_cons, hk]
      rw [hf]

theorem buildGo_ok {lines : List Line} {m m' : List Entry}
    (h : buildGo m lines = .ok m') :
    (∀ l ∈ lines, (get_sample_count l).isSome) ∧ m' = buildPure m lines := by
  induction lines generalizing m with
  | nil =>
    rw [buildGo] at h
    refine ⟨by simp, ?_⟩
    rw [buildPure]
    exact (Except.ok.inj h).symm
  | cons l rest ih =>
    rw [buildGo] at h
    cases hc : get_sample_count l with
    | none => rw [hc] at h; exact absurd h (by simp)
    | some cnt =>
      rw [hc] at h
      rcases ih h with ⟨hall, hm⟩
      refine ⟨?_, ?_⟩
      · intro x hx
        rcases List.mem_cons.mp hx with h1 | h1
        · rw [h1, hc]; rfl
        · exact hall x h1
      · rw [buildPure, hm]
        have : countOf l = cnt := by rw [countOf, hc]; rfl
        rw [this]

theorem buildGo_error {lines : List Line} {m : List Entry} {bad : Line}
    (hmem : bad ∈ lines) (hbad : get_sample_count bad = none) :
    ∃ e, buildGo m lines = .error e := by
  induction lines generalizing m with
  | nil => simp at hmem
  | cons l rest ih =>
    rw [buildGo]
    rcases List.mem_cons.mp hmem with h1 | h1
    · rw [← h1] at *
      rw [hbad]
      exact ⟨_, rfl⟩
    · cases hc : get_sample_count l with
      | none => exact ⟨_, rfl⟩
      | some cnt => exact ih h1

theorem build_sorted {lines : List Line} {m : List Entry}
    (hb : build_stack_map lines = .ok m) : mapSorted m := by
  rcases buildGo_ok hb with ⟨_, hm⟩
  rw [hm]
  exact buildPure_sorted lines mapSorted_nil

theorem build_mem_char {lines : List Line} {m : List Entry}
    (hb : build_stack_map lines = .ok m) {k : Line} {g : LeafGroup}
    (hmem : (k, g) ∈ m) :
    g.2 = leafLines k lines ∧ g.1 = (g.2.map countOf).sum ∧ g.2 ≠ [] := by
  rcases buildGo_ok hb with ⟨_, hm⟩
  have hs : mapSorted m := build_sorted hb
  have hl : mlookup k m = some g := mem_mlookup hs hmem
  rw [hm, buildPure_lookup mapSorted_nil] at hl
  have hnone : mlookup k ([] : List Entry) = none := rfl
  rw [hnone] at hl
  cases hml : leafLines k lines with
  | nil => rw [hml] at hl; exact absurd hl (by simp [combineG])
  | cons a b =>
    rw [hml] at hl
    have : combineG none (a :: b) =
        some (((a :: b).map countOf).sum, a :: b) := rfl
    rw [this] at hl
    have hg := (Option.some.inj hl).symm
    rw [hg, ← hml]
    exact ⟨rfl, rfl, by rw [hml]; simp⟩

theorem leafLines_mem {k : Line} {lines : List Line} {l : Line}
    (h : l ∈ leafLines k lines) : l ∈ lines ∧ get_lowest_stack l = k := by
  rcases List.mem_filter.mp h with ⟨h1, h2⟩
  exact ⟨h1, of_decide_eq_true h2⟩

/-! Lemmas about the significance filter. -/

theorem filterGo_sub {R : Type} {compile : Line → Except String R}
    {rmatch : R → Line → Bool} {total : Nat} {cutoff : ℚ}
    {regexes : List Line} :
    ∀ {entries : List Entry} {out : List LeafGroup},
      filterGo compile rmatch total cutoff regexes entries = .ok out →
      ∃ sub : List Entry, sub.Sublist entries ∧
        out = sub.map (fun e => e.2) ∧
        ∀ e ∈ sub, ((e.2.1 : ℚ) / (total : ℚ) > 0.01 * cutoff) ∧
          (regexes = [] ∨
            scanPatterns compile rmatch (frameOf e.2) regexes = .ok true) := by
  intro entries
  induction entries with
  | nil =>
    intro out h
    rw [filterGo] at h
    refine ⟨[], List.Sublist.refl _, ?_, by simp⟩
    rw [← Except.ok.inj h]
    rfl
  | cons e rest ih =>
    intro out h
    rw [filterGo] at h
    by_cases hp : (e.2.1 : ℚ) / (total : ℚ) > 0.01 * cutoff
    · rw [if_pos hp] at h
      by_cases hre : regexes.isEmpty
      · rw [if_pos hre] at h
        cases hrec : filterGo compile rmatch total cutoff regexes rest with
        | error msg => rw [hrec] at h; exact absurd h (by simp)
        | ok out' =>
          rw [hrec] at h
          rcases ih hrec with ⟨sub, hsl, hout, hcond⟩
          refine ⟨e :: sub, List.Sublist.cons₂ _ hsl, ?_, ?_⟩
          · rw [← Except.ok.inj h, hout]
            rfl
          · intro x hx
            rcases List.mem_cons.mp hx with h1 | h1
            · rw [h1]
              exact ⟨hp, Or.inl (List.isEmpty_iff.mp hre)⟩
            · exact hcond x h1
      · rw [if_neg hre] at h
        cases hscan : scanPatterns compile rmatch (frameOf e.2) regexes with
        | error msg => rw [hscan] at h; exact absurd h (by simp)
        | ok b =>
          rw [hscan] at h
          cases b with
          | true =>
            cases hrec : filterGo compile rmatch total cutoff regexes rest with
            | error msg => rw [hrec] at h; exact absurd h (by simp)
            | ok out' =>
              rw [hrec] at h
              rcases ih hrec with ⟨sub, hsl, hout, hcond⟩
              refine ⟨e :: sub, List.Sublist.cons₂ _ hsl, ?_, ?_⟩
              · rw [← Except.ok.inj h, hout]
                rfl
              · intro x hx
                rcases List.mem_cons.mp hx with h1 | h1
                · rw [h1]
                  exact ⟨hp, Or.inr hscan⟩
                · exact hcond x h1
          | false =>
            rcases ih h with ⟨sub, hsl, hout, hcond⟩
            exact ⟨sub, List.Sublist.cons _ hsl, hout, hcond⟩
    · rw [if_neg hp] at h
      rcases ih h with ⟨sub, hsl, hout, hcond⟩
      exact ⟨sub, List.Sublist.cons _ hsl, hout, hcond⟩

theorem filterGo_all_pass {R : Type} {compile : Line → Except String R}
    {rmatch : R → Line → Bool} {total : Nat} {cutoff : ℚ}
    {regexes : List Line} :
    ∀ {entries : List Entry},
      (∀ e ∈ entries, ((e.2.1 : ℚ) / (total : ℚ) > 0.01 * cutoff) ∧
        (regexes = [] ∨
          scanPatterns compile rmatch (frameOf e.2) regexes = .ok true)) →
      filterGo compile rmatch total cutoff regexes entries =
        .ok (entries.map (fun e => e.2)) := by
  intro entries
  induction entries with
  | nil => intro _; rfl
  | cons e rest ih =>
    intro h
    rcases h e (List.mem_cons_self _ _) with ⟨hp, hcond⟩
    have hrec := ih (fun x hx => h x (List.mem_cons_of_mem _ hx))
    rw [filterGo, if_pos hp]
    rcases hcond with hre | hscan
    · have : regexes.isEmpty = true := by rw [hre]; rfl
      rw [if_pos this, hrec]
      rfl
    · by_cases hre : regexes.isEmpty
      · rw [if_pos hre, hrec]
        rfl
      · rw [if_neg hre, hscan, hrec]
        rfl

theorem filterGo_error {R : Type} {compile : Line → Except String R}
    {rmatch : R → Line → Bool} {total : Nat} {cutoff : ℚ}
    {regexes : List Line} {msg : String} :
    ∀ {entries : List Entry} {e : Entry}, e ∈ entries →
      ((e.2.1 : ℚ) / (total : ℚ) > 0.01 * cutoff) →
      scanPatterns compile rmatch (frameOf e.2) regexes = .error msg →
      ∃ msg', filterGo compile rmatch total cutoff regexes entries = .error msg' := by
  intro entries
  induction entries with
  | nil => intro e h; simp at h
  | cons e0 rest ih =>
    intro e hmem hp hscan
    have hne : ¬ regexes.isEmpty := by
      intro hc
      have : regexes = [] := List.isEmpty_iff.mp hc
      rw [this, scanPatterns] at hscan
      exact absurd hscan (by simp)
    rw [filterGo]
    rcases List.mem_cons.mp hmem with h1 | h1
    · rw [← h1, if_pos hp, if_neg hne, hscan]
      exact ⟨msg, rfl⟩
    · by_cases hp0 : (e0.2.1 : ℚ) / (total : ℚ) > 0.01 * cutoff
      · rw [if_pos hp0, if_neg hne]
        cases hscan0 : scanPatterns compile rmatch (frameOf e0.2) regexes with
        | error msg0 => exact ⟨msg0, rfl⟩
        | ok b =>
          cases b with
          | true =>
            rcases ih h1 hp hscan with ⟨msg', hrec⟩
            rw [hrec]
            exact ⟨msg', rfl⟩
          | false => exact ih h1 hp hscan
      · rw [if_neg hp0]
        exact ih h1 hp hscan

theorem filterGo_zero_total {R : Type} {compile : Line → Except String R}
    {rmatch : R → Line → Bool} {cutoff : ℚ} {regexes : List Line}
    (hcut : 0 ≤ cutoff) :
    ∀ {entries : List Entry}, (∀ e ∈ entries, e.2.1 = 0) →
      filterGo compile rmatch 0 cutoff regexes entries = .ok [] := by
  intro entries
  induction entries with
  | nil => intro _; rfl
  | cons e rest ih =>
    intro h
    have he : e.2.1 = 0 := h e (List.mem_cons_self _ _)
    have hp : ¬ ((e.2.1 : ℚ) / ((0 : Nat) : ℚ) > 0.01 * cutoff) := by
      rw [he]
      push_cast
      rw [div_zero]
      intro hc
      have : (0 : ℚ) ≤ 0.01 * cutoff := by positivity
      exact absurd (lt_of_le_of_lt this hc) (lt_irrefl 0)
    rw [filterGo, if_neg hp]
    exact ih (fun x hx => h x (List.mem_cons_of_mem _ hx))

/-! Pieces for the idempotence of filtering. -/

theorem sumTotals_sublist_le {sub m : List Entry} (h : sub.Sublist m) :
    sumTotals sub ≤ sumTotals m := by
  induction h with
  | slnil => exact le_refl _
  | cons e _ ih =>
    refine le_trans ih ?_
    simp [sumTotals]
  | cons₂ e _ ih =>
    simp only [sumTotals, List.map_cons, List.sum_cons]
    exact Nat.add_le_add_left ih _

theorem total_le_sumTotals {e : Entry} {m : List Entry} (h : e ∈ m) :
    e.2.1 ≤ sumTotals m := by
  induction m with
  | nil => simp at h
  | cons e0 t ih =>
    simp only [sumTotals, List.map_cons, List.sum_cons]
    rcases List.mem_cons.mp h with h1 | h1
    · rw [h1]
      exact Nat.le_add_right _ _
    · exact le_trans (ih h1) (Nat.le_add_left _ _)

theorem share_mono {c T T' : Nat} {cutoff : ℚ} (hcut : 0 ≤ cutoff)
    (hcle : c ≤ T') (hTT : T' ≤ T)
    (hp : (c : ℚ) / (T : ℚ) > 0.01 * cutoff) :
    (c : ℚ) / (T' : ℚ) > 0.01 * cutoff := by
  rcases Nat.eq_zero_or_pos T' with h0 | h0
  · exfalso
    have hc0 : c = 0 := Nat.le_zero.mp (h0 ▸ hcle)
    rw [hc0] at hp
    push_cast at hp
    rw [zero_div] at hp
    have : (0 : ℚ) ≤ 0.01 * cutoff := by positivity
    exact absurd (lt_of_le_of_lt this hp) (lt_irrefl 0)
  · have hT'Q : (0 : ℚ) < (T' : ℚ) := by exact_mod_cast h0
    have hTTQ : (T' : ℚ) ≤ (T : ℚ) := by exact_mod_cast hTT
    have hcQ : (0 : ℚ) ≤ (c : ℚ) := by positivity
    exact lt_of_lt_of_le hp (div_le_div_of_nonneg_left hcQ hT'Q hTTQ)

theorem leafLines_flatten {sub : List Entry} (hs : mapSorted sub)
    (hleaf : ∀ e ∈ sub, ∀ l ∈ e.2.2, get_lowest_stack l = e.1) (k : Line) :
    leafLines k ((sub.map (fun e => e.2.2)).flatten) =
      (match mlookup k sub with | some g => g.2 | none => []) := by
  induction sub with
  | nil => rfl
  | cons e t ih =>
    rcases List.pairwise_cons.mp hs with ⟨h0, ht⟩
    have hflat : ((e :: t).map (fun e => e.2.2)).flatten =
        e.2.2 ++ ((t.map (fun e => e.2.2)).flatten) := by simp
    rw [hflat]
    have happ : leafLines k (e.2.2 ++ (t.map (fun e => e.2.2)).flatten) =
        leafLines k e.2.2 ++ leafLines k ((t.map (fun e => e.2.2)).flatten) :=
      List.filter_append _ _
    rw [happ, ih ht (fun x hx => hleaf x (List.mem_cons_of_mem _ hx))]
    by_cases hk : k = e.1
    · have hself : leafLines k e.2.2 = e.2.2 := by
        apply List.filter_eq_self.mpr
        intro l hl
        exact decide_eq_true (by rw [hleaf e (List.mem_cons_self _ _) l hl, hk])
      have hnone : mlookup k t = none := by
        rw [hk]
        exact mlookup_head_none hs
      rw [hself, hnone, mlookup, if_pos hk]
      simp
    · have hnil : leafLines k e.2.2 = [] := by
        apply List.filter_eq_nil_iff.mpr
        intro l hl
        intro hc
        exact hk ((of_decide_eq_true hc).symm.trans
          (hleaf e (List.mem_cons_self _ _) l hl))
      rw [hnil, mlookup, if_neg hk]
      simp

theorem rebuild_eq {sub : List Entry} (hs : mapSorted sub)
    (hleaf : ∀ e ∈ sub, ∀ l ∈ e.2.2, get_lowest_stack l = e.1)
    (htot : ∀ e ∈ sub, e.2.1 = (e.2.2.map countOf).sum)
    (hne : ∀ e ∈ sub, e.2.2 ≠ []) :
    buildPure [] ((sub.map (fun e => e.2.2)).flatten) = sub := by
  apply mapExt (buildPure_sorted _ mapSorted_nil) hs
  intro k
  rw [buildPure_lookup mapSorted_nil]
  have hnone : mlookup k ([] : List Entry) = none := rfl
  rw [hnone, leafLines_flatten hs hleaf k]
  cases hml : mlookup k sub with
  | none => rfl
  | some g =>
    have hmem : (k, g) ∈ sub := mlookup_some_mem hml
    show combineG none g.2 = some g
    cases hg2 : g.2 with
    | nil => exact absurd hg2 (hne (k, g) hmem)
    | cons a b =>
      have hred : combineG none (a :: b) =
          some (((a :: b).map countOf).sum, a :: b) := rfl
      rw [hred, ← hg2]
      have htt := htot (k, g) hmem
      simp only at htt
      rw [← htt]

/-! Lemmas about the backward delimiter search of the truncator. -/

theorem mem_of_getLastSome {l : List Nat} {a : Nat} (h : l.getLast? = some a) :
    a ∈ l := by
  induction l with
  | nil => simp at h
  | cons x t ih =>
    cases t with
    | nil =>
      simp at h
      rw [h]
      exact List.mem_cons_self _ _
    | cons y t' =>
      rw [List.getLast?_cons_cons] at h
      exact List.mem_cons_of_mem _ (ih h)

theorem findLastOf_append (u v : List Char) (c : Char) :
    findLastOf (u ++ v) c =
      match findLastOf v c with
      | some i => some (u.length + i)
      | none => findLastOf u c := by
  induction u with
  | nil =>
    cases h : findLastOf v c
    · simp [h, findLastOf]
    · simp [h]
  | cons a u' ih =>
    rw [List.cons_append, findLastOf, ih]
    cases h : findLastOf v c with
    | some i =>
      simp only
      have : u'.length + i + 1 = (a :: u').length + i := by
        simp [List.length_cons]
        omega
      rw [← this]
    | none =>
      simp only
      rw [findLastOf]

theorem findLastOf_lt_length {s : List Char} {c : Char} {i : Nat}
    (h : findLastOf s c = some i) : i < s.length := by
  induction s generalizing i with
  | nil => simp [findLastOf] at h
  | cons a t ih =>
    rw [findLastOf] at h
    cases hr : findLastOf t c with
    | some j =>
      rw [hr] at h
      have := ih hr
      rw [← Option.some.inj h]
      simp only [List.length_cons]
      omega
    | none =>
      rw [hr] at h
      by_cases hc : a = c
      · rw [if_pos hc] at h
        rw [← Option.some.inj h]
        simp
      · rw [if_neg hc] at h
        exact absurd h (by simp)

theorem semiIdxs_lt_length {s : Line} {i : Nat} (h : i ∈ semiIdxs s) :
    i < s.length := by
  induction s generalizing i with
  | nil => simp [semiIdxs] at h
  | cons a t ih =>
    rw [semiIdxs] at h
    rcases List.mem_append.mp h with h1 | h1
    · by_cases hc : a = ';'
      · rw [if_pos hc] at h1
        simp at h1
        rw [h1]
        simp
      · rw [if_neg hc] at h1
        simp at h1
    · rcases List.mem_map.mp h1 with ⟨j, hj, hji⟩
      rw [← hji]
      simp only [List.length_cons]
      exact Nat.succ_lt_succ (ih hj)

theorem semiIdxs_sorted (s : Line) : (semiIdxs s).Pairwise (· < ·) := by
  induction s with
  | nil => simp [semiIdxs]
  | cons a t ih =>
    rw [semiIdxs]
    apply List.pairwise_append.mpr
    refine ⟨?_, ?_, ?_⟩
    · by_cases hc : a = ';' <;> simp [hc]
    · exact List.Pairwise.map _ (fun x y hxy => Nat.succ_lt_succ hxy) ih
    · intro x hx y hy
      have hx0 : x = 0 := by
        by_cases hc : a = ';'
        · rw [if_pos hc] at hx
          simpa using hx
        · rw [if_neg hc] at hx
          simp at hx
      rcases List.mem_map.mp hy with ⟨j, _, hji⟩
      rw [hx0, ← hji]
      exact Nat.succ_pos _

theorem semiIdxs_zero {s : Line} : 0 ∈ semiIdxs s ↔ s.head? = some ';' := by
  cases s with
  | nil => simp [semiIdxs]
  | cons a t =>
    rw [semiIdxs]
    constructor
    · intro h
      rcases List.mem_append.mp h with h1 | h1
      · by_cases hc : a = ';'
        · rw [hc]
          rfl
        · rw [if_neg hc] at h1
          simp at h1
      · rcases List.mem_map.mp h1 with ⟨j, _, hji⟩
        omega
    · intro h
      have : a = ';' := by
        simp at h
        exact h
      rw [if_pos this]
      simp

theorem findLastOf_semi (s : Line) :
    findLastOf s ';' = (semiIdxs s).getLast? := by
  induction s with
  | nil => rfl
  | cons a t ih =>
    rw [findLastOf, semiIdxs, ih]
    cases h : semiIdxs t with
    | nil =>
      simp only [List.getLast?_nil, List.map_nil, List.append_nil]
      by_cases hc : a = ';' <;> simp [hc]
    | cons x xs =>
      have hne : ((x :: xs).map (· + 1)) ≠ [] := by simp
      rw [List.getLast?_append_of_ne_nil _ hne, List.getLast?_map]
      cases hg : (x :: xs).getLast? with
      | none => simp at hg
      | some j => simp

theorem semiIdxs_take (s : Line) (n : Nat) :
    semiIdxs (s.take n) = (semiIdxs s).filter (fun i => decide (i < n)) := by
  induction s generalizing n with
  | nil => simp [semiIdxs]
  | cons a t ih =>
    cases n with
    | zero => simp [semiIdxs]
    | succ n' =>
      rw [List.take_succ_cons, semiIdxs, semiIdxs, List.filter_append, ih n']
      congr 1
      · by_cases hc : a = ';' <;> simp [hc]
      · rw [List.filter_map]
        have : ((semiIdxs t).filter (fun i => decide (i < n'))).map (· + 1) =
            ((semiIdxs t).filter ((fun i => decide (i < n' + 1)) ∘ (· + 1))).map (· + 1) := by
          congr 1
          apply List.filter_congr
          intro x _
          simp only [Function.comp]
          rw [decide_eq_decide]
          omega
        rw [this]

theorem rfind_semi (s : Line) (p : Nat) :
    rfindFrom s ';' p =
      ((semiIdxs s).filter (fun d => decide (d ≤ p))).getLast? := by
  rw [rfindFrom, findLastOf_semi, semiIdxs_take]
  congr 1
  apply List.filter_congr
  intro x _
  rw [decide_eq_decide]
  omega

theorem sorted_filter_lt {D : List Nat} (hD : D.Pairwise (· < ·)) :
    ∀ {j e : Nat}, D[j]? = some e →
      D.filter (fun d => decide (d < e)) = D.take j := by
  induction D with
  | nil => intro j e he; simp at he
  | cons a t ih =>
    intro j e he
    rcases List.pairwise_cons.mp hD with ⟨h0, ht⟩
    cases j with
    | zero =>
      simp at he
      rw [List.take_zero]
      apply List.filter_eq_nil_iff.mpr
      intro x hx hc
      have h2 := of_decide_eq_true hc
      rcases List.mem_cons.mp hx with h1 | h1
      · rw [h1, ← he] at h2
        exact lt_irrefl _ h2
      · have h3 := h0 x h1
        rw [← he] at h2
        omega
    | succ j' =>
      have he' : t[j']? = some e := by simpa using he
      have hmem : e ∈ t := List.getElem?_mem he'
      have hae : a < e := h0 e hmem
      rw [List.filter_cons, decide_eq_true hae, if_pos rfl,
        List.take_succ_cons, ih ht he']

theorem shrinkPos_walk {s : Line} (hzero : 0 ∉ semiIdxs s) :
    ∀ (k : Nat) {p m : Nat}, p ≠ 0 → m ≤ (semiIdxs s).length →
      (semiIdxs s).filter (fun d => decide (d ≤ p - 1)) = (semiIdxs s).take m →
      shrinkPos s k p =
        if k = 0 then some p
        else if k ≤ m then (semiIdxs s)[m - k]? else none := by
  intro k
  induction k with
  | zero =>
    intro p m hp hm hfil
    rw [shrinkPos]
    simp
  | succ i ih =>
    intro p m hp hm hfil
    rw [shrinkPos]
    have hb : (if p = 0 then s.length else p - 1) = p - 1 := if_neg hp
    rw [hb, rfind_semi, hfil]
    cases hg : ((semiIdxs s).take m).getLast? with
    | none =>
      have hnil : (semiIdxs s).take m = [] := List.getLast?_eq_none_iff.mp hg
      have hm0 : m = 0 := by
        rcases List.take_eq_nil_iff.mp hnil with h | h
        · exact h
        · rw [h] at hm
          simpa using hm
      rw [if_neg (Nat.succ_ne_zero i), if_neg (by omega)]
    | some e =>
      have hne : (semiIdxs s).take m ≠ [] := by
        intro hc
        rw [hc] at hg
        simp at hg
      have hm0 : m ≠ 0 := by
        intro hc
        rw [hc] at hne
        simp at hne
      have hlen : ((semiIdxs s).take m).length = m := by
        rw [List.length_take]
        omega
      have hIdx : (semiIdxs s)[m - 1]? = some e := by
        rw [List.getLast?_eq_getElem?, hlen, List.getElem?_take,
          if_pos (by omega)] at hg
        exact hg
      have hmem : e ∈ semiIdxs s := List.getElem?_mem hIdx
      have he0 : e ≠ 0 := fun hc => hzero (hc ▸ hmem)
      have hfil' : (semiIdxs s).filter (fun d => decide (d ≤ e - 1)) =
          (semiIdxs s).take (m - 1) := by
        have hcong : (semiIdxs s).filter (fun d => decide (d ≤ e - 1)) =
            (semiIdxs s).filter (fun d => decide (d < e)) := by
          apply List.filter_congr
          intro x _
          rw [decide_eq_decide]
          omega
        rw [hcong]
        exact sorted_filter_lt (semiIdxs_sorted s) hIdx
      show shrinkPos s i e = _
      rw [ih he0 (by omega) hfil']
      rw [if_neg (Nat.succ_ne_zero i)]
      by_cases hi : i = 0
      · rw [if_pos hi, if_pos (by omega)]
        have hmm : m - (i + 1) = m - 1 := by omega
        rw [hmm, hIdx]
      · rw [if_neg hi]
        by_cases him : i ≤ m - 1
        · rw [if_pos him, if_pos (by omega)]
          congr 1
          omega
        · rw [if_neg him, if_neg (by omega)]

theorem shrinkLine_trunc {limit : Nat} {s : Line} (hl : limit ≠ 0)
    (hhead : s.head? ≠ some ';') : shrinkLine limit s = truncSpec limit s := by
  have hzero : 0 ∉ semiIdxs s := fun hc => hhead (semiIdxs_zero.mp hc)
  cases s with
  | nil =>
    cases limit with
    | zero => exact absurd rfl hl
    | succ i => rfl
  | cons a t =>
    have hlen0 : (a :: t).length ≠ 0 := by simp
    have hfil : (semiIdxs (a :: t)).filter
        (fun d => decide (d ≤ (a :: t).length - 1)) =
        (semiIdxs (a :: t)).take (semiIdxs (a :: t)).length := by
      rw [List.take_length]
      apply List.filter_eq_self.mpr
      intro x hx
      apply decide_eq_true
      have := semiIdxs_lt_length hx
      omega
    have hwalk := shrinkPos_walk hzero limit hlen0 (le_refl _) hfil
    rw [shrinkLine, hwalk, if_neg hl, truncSpec]
    by_cases hle : limit ≤ (semiIdxs (a :: t)).length
    · rw [if_pos hle]
      have hrev : ((semiIdxs (a :: t)).reverse)[limit - 1]? =
          (semiIdxs (a :: t))[(semiIdxs (a :: t)).length - limit]? := by
        rw [List.getElem?_reverse (by omega)]
        congr 1
        omega
      rw [hrev]
      cases hg : (semiIdxs (a :: t))[(semiIdxs (a :: t)).length - limit]? with
      | none =>
        exfalso
        rw [List.getElem?_eq_none_iff] at hg
        omega
      | some e => rfl
    · rw [if_neg hle]
      have hnone : ((semiIdxs (a :: t)).reverse)[limit - 1]? = none := by
        apply List.getElem?_eq_none_iff.mpr
        rw [List.length_reverse]
        omega
      rw [hnone]

theorem rfind_mem_semi {s : Line} {p q : Nat}
    (h : rfindFrom s ';' p = some q) : q ∈ semiIdxs s := by
  rw [rfind_semi] at h
  exact (List.mem_filter.mp (mem_of_getLastSome h)).1

theorem shrinkPos_mem {s : Line} :
    ∀ {i p q : Nat}, shrinkPos s (i + 1) p = some q → q ∈ semiIdxs s := by
  intro i
  induction i with
  | zero =>
    intro p q h
    rw [shrinkPos] at h
    cases hr : rfindFrom s ';' (if p = 0 then s.length else p - 1) with
    | none => rw [hr] at h; exact absurd h (by simp)
    | some q0 =>
      rw [hr] at h
      have h' : shrinkPos s 0 q0 = some q := h
      rw [shrinkPos] at h'
      exact (Option.some.inj h') ▸ rfind_mem_semi hr
  | succ i ih =>
    intro p q h
    rw [shrinkPos] at h
    cases hr : rfindFrom s ';' (if p = 0 then s.length else p - 1) with
    | none => rw [hr] at h; exact absurd h (by simp)
    | some q0 =>
      rw [hr] at h
      have h' : shrinkPos s (i + 1) q0 = some q := h
      exact ih h'

theorem mem_le_getLast {l : List Nat} (hs : l.Pairwise (· < ·)) :
    ∀ {x b : Nat}, x ∈ l → l.getLast? = some b → x ≤ b := by
  induction l with
  | nil => intro x b hx _; simp at hx
  | cons a t ih =>
    intro x b hx hb
    rcases List.pairwise_cons.mp hs with ⟨h0, ht⟩
    cases t with
    | nil =>
      simp at hb hx
      omega
    | cons y t' =>
      rw [List.getLast?_cons_cons] at hb
      rcases List.mem_cons.mp hx with h1 | h1
      · have hbmem : b ∈ y :: t' := mem_of_getLastSome hb
        have := h0 b hbmem
        omega
      · exact ih ht h1 hb

theorem findLastOf_drop {s : List Char} {c : Char} {a m : Nat}
    (h : findLastOf s c = some a) (hm : m ≤ a) :
    findLastOf (s.drop m) c = some (a - m) := by
  have happ := findLastOf_append (s.take m) (s.drop m) c
  rw [List.take_append_drop] at happ
  cases hd : findLastOf (s.drop m) c with
  | none =>
    rw [hd] at happ
    simp only at happ
    rw [happ] at h
    have := findLastOf_lt_length h
    rw [List.length_take] at this
    omega
  | some j =>
    rw [hd] at happ
    simp only at happ
    rw [happ] at h
    have hj := findLastOf_lt_length hd
    rw [List.length_drop] at hj
    have ha := Option.some.inj h
    rw [List.length_take] at ha
    congr 1
    omega

theorem get_sample_count_drop {s : List Char} {a m : Nat}
    (h : findLastOf s ' ' = some a) (hm : m ≤ a) :
    get_sample_count (s.drop m) = get_sample_count s := by
  rw [get_sample_count, get_sample_count, h, findLastOf_drop h hm]
  have hdd : (s.drop m).drop (a - m) = s.drop a := by
    rw [List.drop_drop]
    congr 1
    omega
  show some ((atoiChars ((s.drop m).drop (a - m))).emod (2 ^ 64)).toNat =
    some ((atoiChars (s.drop a)).emod (2 ^ 64)).toNat
  rw [hdd]

theorem shrinkLine_count {limit : Nat} (hl : limit ≠ 0) {s : Line}
    (hwf : wfLine s = true) :
    get_sample_count (shrinkLine limit s) = get_sample_count s := by
  rw [shrinkLine]
  cases hq : shrinkPos s limit s.length with
  | none => rfl
  | some p =>
    cases limit with
    | zero => exact absurd rfl hl
    | succ i =>
      have hmem : p ∈ semiIdxs s := shrinkPos_mem hq
      rw [wfLine] at hwf
      cases hsp : findLastOf s ' ' with
      | none =>
        rw [hsp] at hwf
        exact absurd hwf (by simp)
      | some a =>
        cases hsemi : findLastOf s ';' with
        | none =>
          exfalso
          rw [findLastOf_semi] at hsemi
          rw [List.getLast?_eq_none_iff.mp hsemi] at hmem
          simp at hmem
        | some b =>
          rw [hsp, hsemi] at hwf
          have hba : b < a := of_decide_eq_true hwf
          have hpb : p ≤ b := by
            apply mem_le_getLast (semiIdxs_sorted s) hmem
            rw [← findLastOf_semi]
            exact hsemi
          exact get_sample_count_drop hsp (by omega)

/-! Remaining helper lemmas. -/

theorem point01_mul (q : ℚ) : 0.01 * q = q / 100 := by
  rw [div_eq_mul_inv, mul_comm]
  norm_num

theorem buildGo_total {lines : List Line} {m : List Entry}
    (hall : ∀ l ∈ lines, (get_sample_count l).isSome) :
    buildGo m lines = .ok (buildPure m lines) := by
  induction lines generalizing m with
  | nil => rfl
  | cons l rest ih =>
    rw [buildGo, buildPure]
    cases hc : get_sample_count l with
    | none =>
      have := hall l (List.mem_cons_self _ _)
      rw [hc] at this
      simp at this
    | some cnt =>
      have hco : countOf l = cnt := by rw [countOf, hc]; rfl
      rw [hco]
      exact ih (fun x hx => hall x (List.mem_cons_of_mem _ hx))

theorem atoiChars_fails {s : List Char} (h : atoiFails s = true) :
    atoiChars s = 0 := by
  have hdec : ∀ (r : List Char), headIsDigit r = false →
      decimalVal (r.takeWhile Char.isDigit) = 0 := by
    intro r hr
    cases r with
    | nil => rfl
    | cons a t =>
      rw [headIsDigit] at hr
      rw [List.takeWhile_cons, hr]
      rfl
  rw [atoiFails] at h
  cases ht : s.dropWhile isCSpace with
  | nil =>
    simp only [atoiChars, ht]
    rw [hdec [] rfl]
    rfl
  | cons a r =>
    rw [ht] at h
    simp only [atoiChars, ht]
    split
    · rename_i r1 heq
      injection heq with hh1 hh2
      subst hh1
      subst hh2
      have hds : dropSign ('-' :: r) = r := rfl
      rw [hds] at h
      have hr : headIsDigit r = false := by
        cases hh : headIsDigit r
        · rfl
        · rw [hh] at h
          exact absurd h (by decide)
      rw [hdec r hr]
      rfl
    · rename_i r1 heq
      injection heq with hh1 hh2
      subst hh1
      subst hh2
      have hds : dropSign ('+' :: r) = r := rfl
      rw [hds] at h
      have hr : headIsDigit r = false := by
        cases hh : headIsDigit r
        · rfl
        · rw [hh] at h
          exact absurd h (by decide)
      rw [hdec r hr]
      rfl
    · by_cases hd : a.isDigit
      · exfalso
        have h1 : a ≠ '-' := by
          intro hc
          rw [hc] at hd
          exact absurd hd (by decide)
        have h2 : a ≠ '+' := by
          intro hc
          rw [hc] at hd
          exact absurd hd (by decide)
        have hne : (a == '-' || a == '+') = false := by
          simp [h1, h2]
        have hds : dropSign (a :: r) = a :: r := by
          rw [dropSign, hne]
          rfl
        rw [hds] at h
        have hhd : headIsDigit (a :: r) = true := by
          rw [headIsDigit]
          exact hd
        rw [hhd] at h
        exact absurd h (by decide)
      · have hd' : a.isDigit = false := by
          cases hh : a.isDigit
          · rfl
          · exact absurd hh hd
        have hnil : (a :: r).takeWhile Char.isDigit = [] := by
          rw [List.takeWhile_cons, hd']
          rfl
        rw [hnil]
        rfl

/-! The claims. -/

/-- C1: the significance filter retains a group only when its share of the
total samples strictly exceeds cutoff_percentage / 100; consequently a
group whose share equals the cutoff exactly (such as 5 of 1000 at cutoff
0.5) is dropped from the output. -/
theorem C1_cutoff_strict {R : Type} {compile : Line → Except String R}
    {rmatch : R → Line → Bool} {m : List Entry} {cutoff : ℚ}
    {regexes : List Line} {out : List LeafGroup}
    (h : filter_stack compile rmatch m cutoff regexes = .ok out) :
    (∀ g ∈ out, (g.1 : ℚ) / (sumTotals m : ℚ) > cutoff / 100) ∧
    (∀ k g, (k, g) ∈ m → (g.1 : ℚ) / (sumTotals m : ℚ) = cutoff / 100 →
      g ∉ out) := by
  rw [filter_stack] at h
  rcases filterGo_sub h with ⟨sub, _, hout, hcond⟩
  have h1 : ∀ g ∈ out, (g.1 : ℚ) / (sumTotals m : ℚ) > cutoff / 100 := by
    intro g hg
    rw [hout] at hg
    rcases List.mem_map.mp hg with ⟨e, he, hge⟩
    have hp := (hcond e he).1
    rw [point01_mul] at hp
    rw [← hge]
    exact hp
  refine ⟨h1, ?_⟩
  intro k g _ heq hgo
  have := h1 g hgo
  rw [heq] at this
  exact lt_irrefl _ this

/-- Witness for C1 at the example of the specification: total samples 1000,
group count 5, cutoff 0.5; the boundary group's share equals the cutoff
exactly and the group is not retained. -/
theorem C1_cutoff_strict_witness :
    ((5 : ℚ) / ((sumTotals [(("a").toList, (5, [("x;a 5").toList])),
        (("b").toList, (995, [("b 995").toList]))] : Nat) : ℚ) =
      (1/2 : ℚ) / 100) ∧
    (∀ k g, (k, g) ∈ [(("a").toList, ((5 : Nat), [("x;a 5").toList])),
        (("b").toList, (995, [("b 995").toList]))] →
      (g.1 : ℚ) / ((sumTotals [(("a").toList, ((5 : Nat), [("x;a 5").toList])),
        (("b").toList, (995, [("b 995").toList]))] : Nat) : ℚ) =
        (1/2 : ℚ) / 100 →
      g ∉ [((995 : Nat), [("b 995").toList])]) :=
  ⟨by with_unfolding_all decide,
   (@C1_cutoff_strict Unit noRegex noMatch _ (1/2) [] _
      (by with_unfolding_all decide)).2⟩

/-- C2 counterexample: an input whose total sample count is zero is not
surfaced as an error; the pipeline succeeds, returns an empty output and
the process exit code is 0. -/
theorem C2_zero_total_counterexample :
    runPipeline noRegex noMatch [("a;b 0").toList] (1/2) 0 [] = .ok [] ∧
    mainExitCode noRegex noMatch [("a;b 0").toList] (1/2) 0 [] = 0 := by
  constructor
  · with_unfolding_all decide
  · with_unfolding_all decide

/-- C2 amended: when the total over all groups is zero the filter silently
performs the division (NaN in C++, 0 in this exact model, both failing the
strict comparison for a nonnegative cutoff), drops every group and returns
ok with the empty list; no error reaches the caller. -/
theorem C2_zero_total_silent {R : Type} {compile : Line → Except String R}
    {rmatch : R → Line → Bool} {m : List Entry} {cutoff : ℚ}
    {regexes : List Line} (htot : sumTotals m = 0) (hcut : 0 ≤ cutoff) :
    filter_stack compile rmatch m cutoff regexes = .ok [] := by
  rw [filter_stack, htot]
  apply filterGo_zero_total hcut
  intro e he
  have := total_le_sumTotals he
  omega

/-- Witness for the amended C2 on a one-group map whose only count is 0. -/
theorem C2_zero_total_silent_witness :
    filter_stack noRegex noMatch
      [(("b").toList, ((0 : Nat), [("a;b 0").toList]))] (1/2) [] = .ok [] :=
  @C2_zero_total_silent Unit noRegex noMatch
    [(("b").toList, ((0 : Nat), [("a;b 0").toList]))] (1/2) []
    (by decide) (by with_unfolding_all decide)

/-- C3 counterexample: the pattern set ends with the malformed pattern of
one opening parenthesis, which the engine refuses to compile, yet the run
completes successfully, because the only group passing the cutoff already
matched the first pattern and the scan stopped there; the malformed
pattern is skipped, contradicting the claim that the run aborts for every
input containing a malformed pattern. -/
theorem C3_malformed_skipped_counterexample :
    egCompile (("(").toList) = .error "regex_error" ∧
    filter_stack egCompile egMatch [(("b").toList, (9, [("a;b 9").toList]))]
      (1/2) [("b").toList, ("(").toList] = .ok [(9, [("a;b 9").toList])] := by
  constructor
  · decide
  · with_unfolding_all decide

/-- C3 amended: a malformed pattern aborts the run exactly when the filter
reaches it: patterns are compiled lazily, per passing group, in list order,
stopping at the first match; whenever some group passes the cutoff and its
pattern scan runs into the failing compile, filter_stack returns an
error. -/
theorem C3_malformed_aborts_when_reached {R : Type}
    {compile : Line → Except String R} {rmatch : R → Line → Bool}
    {m : List Entry} {cutoff : ℚ} {regexes : List Line} {msg : String}
    {e : Entry} (hmem : e ∈ m)
    (hp : (e.2.1 : ℚ) / (sumTotals m : ℚ) > cutoff / 100)
    (hscan : scanPatterns compile rmatch (frameOf e.2) regexes = .error msg) :
    ∃ msg', filter_stack compile rmatch m cutoff regexes = .error msg' := by
  rw [filter_stack]
  apply filterGo_error hmem _ hscan
  rw [point01_mul]
  exact hp

/-- Witness for the amended C3: with the malformed pattern first in the
list and a group passing the cutoff, the run aborts with an error. -/
theorem C3_malformed_aborts_witness :
    ∃ msg', filter_stack egCompile egMatch
      [(("b").toList, ((9 : Nat), [("a;b 9").toList]))] (1/2)
      [("(").toList] = .error msg' :=
  @C3_malformed_aborts_when_reached Line egCompile egMatch
    [(("b").toList, ((9 : Nat), [("a;b 9").toList]))] (1/2)
    [("(").toList] "regex_error" (("b").toList, (9, [("a;b 9").toList]))
    (by decide) (by with_unfolding_all decide) (by decide)

/-- C4 counterexample: the member line beginning with the delimiter has two
delimiters, fewer than the stack limit 3, so by the claim it must stay
unchanged; the backward search wraps around at position 0 (size_t
underflow clamped by rfind) and the truncator changes the line. -/
theorem C4_truncation_counterexample :
    ((";a;b 1").toList).count ';' = 2 ∧
    shrink_to_stack_limit [(1, [(";a;b 1").toList])] 3 =
      [(1, [("b 1").toList])] ∧
    shrink_to_stack_limit [(1, [(";a;b 1").toList])] 3 ≠
      [(1, [(";a;b 1").toList])] := by
  refine ⟨by decide, by decide, by decide⟩

/-- C4 amended: for every stack_limit > 0 and every member line that does
not begin with the delimiter, the truncator removes everything up to and
including the stack_limit-th delimiter counted backward from the end and
leaves lines with fewer than stack_limit delimiters unchanged (truncSpec);
a line whose first character is the delimiter may still be modified when it
is shallower than the limit, because the search position underflows at 0
and the search wraps to the end of the line. -/
theorem C4_truncation_spec {stackList : List LeafGroup} {stack_limit : Nat}
    (hl : stack_limit ≠ 0)
    (hhead : ∀ g ∈ stackList, ∀ l ∈ g.2, l.head? ≠ some ';') :
    shrink_to_stack_limit stackList stack_limit =
      stackList.map (fun g => (g.1, g.2.map (truncSpec stack_limit))) := by
  rw [shrink_to_stack_limit, if_neg hl]
  apply List.map_congr_left
  intro g hg
  have : g.2.map (shrinkLine stack_limit) = g.2.map (truncSpec stack_limit) := by
    apply List.map_congr_left
    intro l hlm
    exact shrinkLine_trunc hl (hhead g hg l hlm)
  rw [this]

/-- Witness for the amended C4 on a three-frame line with limit 2: the two
leaf-most frames plus the count survive. -/
theorem C4_truncation_spec_witness :
    shrink_to_stack_limit [((10 : Nat), [("main;foo;bar 10").toList])] 2 =
      [((10 : Nat), [("main;foo;bar 10").toList])].map
        (fun g => (g.1, g.2.map (truncSpec 2))) :=
  @C4_truncation_spec [((10 : Nat), [("main;foo;bar 10").toList])] 2
    (by decide) (by decide)

/-- C5: with stack_limit 0 the depth truncator is the identity: every
group, member line and call path of the filtered sequence is returned
unchanged. -/
theorem C5_zero_limit_identity (stackList : List LeafGroup) :
    shrink_to_stack_limit stackList 0 = stackList := by
  rw [shrink_to_stack_limit, if_pos rfl]

/-- C6: filtering is idempotent: re-aggregating the filter's output lines
and filtering again with the same nonnegative cutoff and the same pattern
set succeeds and retains exactly the same groups (shares only grow when
the total shrinks, so no boundary group flips). -/
theorem C6_filter_idempotent {R : Type} {compile : Line → Except String R}
    {rmatch : R → Line → Bool} {lines : List Line} {m : List Entry}
    {cutoff : ℚ} {regexes : List Line} {out : List LeafGroup}
    (hcut : 0 ≤ cutoff) (hb : build_stack_map lines = .ok m)
    (hf : filter_stack compile rmatch m cutoff regexes = .ok out) :
    ∃ m', build_stack_map ((out.map (fun g => g.2)).flatten) = .ok m' ∧
      filter_stack compile rmatch m' cutoff regexes = .ok out := by
  rcases buildGo_ok hb with ⟨hall, _⟩
  have hsorted : mapSorted m := build_sorted hb
  rw [filter_stack] at hf
  rcases filterGo_sub hf with ⟨sub, hsl, hout, hcond⟩
  have hchar : ∀ e ∈ sub, e.2.2 = leafLines e.1 lines ∧
      e.2.1 = (e.2.2.map countOf).sum ∧ e.2.2 ≠ [] :=
    fun e he => build_mem_char hb (show (e.1, e.2) ∈ m from hsl.subset he)
  have hsubSorted : mapSorted sub := hsorted.sublist hsl
  have hleaf : ∀ e ∈ sub, ∀ l ∈ e.2.2, get_lowest_stack l = e.1 := by
    intro e he l hl
    have h1 := (hchar e he).1
    rw [h1] at hl
    exact (leafLines_mem hl).2
  have hmemLines : ∀ e ∈ sub, ∀ l ∈ e.2.2, l ∈ lines := by
    intro e he l hl
    have h1 := (hchar e he).1
    rw [h1] at hl
    exact (leafLines_mem hl).1
  have houtlines : (out.map (fun g => g.2)).flatten =
      (sub.map (fun e => e.2.2)).flatten := by
    rw [hout, List.map_map]
    rfl
  have hparse : ∀ l ∈ (sub.map (fun e => e.2.2)).flatten,
      (get_sample_count l).isSome := by
    intro l hl
    rcases List.mem_flatten.mp hl with ⟨ms, hms, hlm⟩
    rcases List.mem_map.mp hms with ⟨e, he, hem⟩
    exact hall l (hmemLines e he l (hem ▸ hlm))
  have hrebuild : buildPure [] ((sub.map (fun e => e.2.2)).flatten) = sub :=
    rebuild_eq hsubSorted hleaf (fun e he => (hchar e he).2.1)
      (fun e he => (hchar e he).2.2)
  refine ⟨sub, ?_, ?_⟩
  · rw [houtlines, build_stack_map, buildGo_total hparse, hrebuild]
  · rw [filter_stack, hout]
    apply filterGo_all_pass
    intro e he
    rcases hcond e he with ⟨hp, hmt⟩
    exact ⟨share_mono hcut (total_le_sumTotals he)
      (sumTotals_sublist_le hsl) hp, hmt⟩

/-- Witness for C6 on a two-line input with cutoff 2 percent, which drops
one group and keeps the other; re-aggregating the output and filtering
again returns the same single group. -/
theorem C6_filter_idempotent_witness :
    ∃ m', build_stack_map (([((99 : Nat), [("c 99").toList])].map
        (fun g => g.2)).flatten) = .ok m' ∧
      filter_stack noRegex noMatch m' 2 [] =
        .ok [((99 : Nat), [("c 99").toList])] :=
  @C6_filter_idempotent Unit noRegex noMatch
    [("a;b 1").toList, ("c 99").toList]
    [(("b").toList, ((1 : Nat), [("a;b 1").toList])),
     (("c").toList, ((99 : Nat), [("c 99").toList]))]
    2 [] [((99 : Nat), [("c 99").toList])]
    (by with_unfolding_all decide) (by decide) (by with_unfolding_all decide)

/-- C7: deterministic output order: retained groups appear in strictly
increasing lexicographic order of their leaf frame name, every group's
member list is a subsequence of the input lines (original file order), and
the writer emits exactly the members of each group in that order, line for
line. -/
theorem C7_output_ordering {R : Type} {compile : Line → Except String R}
    {rmatch : R → Line → Bool} {lines : List Line} {m : List Entry}
    {cutoff : ℚ} {regexes : List Line} {out : List LeafGroup}
    (hb : build_stack_map lines = .ok m)
    (hf : filter_stack compile rmatch m cutoff regexes = .ok out) :
    (out.map frameOf).Pairwise (fun a b => lexLt a b = true) ∧
    (∀ g ∈ out, g.2.Sublist lines) ∧
    write_filtered_stack_to_file out = (out.map (fun g => g.2)).flatten := by
  rw [filter_stack] at hf
  rcases filterGo_sub hf with ⟨sub, hsl, hout, _⟩
  have hsorted : mapSorted m := build_sorted hb
  have hsubSorted : mapSorted sub := hsorted.sublist hsl
  refine ⟨?_, ?_, rfl⟩
  · have hmap : out.map frameOf = sub.map Prod.fst := by
      rw [hout, List.map_map]
      apply List.map_congr_left
      intro e he
      have hm : (e.1, e.2) ∈ m := hsl.subset he
      rcases build_mem_char hb hm with ⟨hml, _, hne⟩
      cases hm2 : e.2.2 with
      | nil => exact absurd hm2 hne
      | cons l ls =>
        have hlmem : l ∈ leafLines e.1 lines := by
          rw [← hml, hm2]
          exact List.mem_cons_self _ _
        have hlf := (leafLines_mem hlmem).2
        show frameOf e.2 = e.1
        rw [frameOf, hm2]
        exact hlf
    rw [hmap]
    exact List.pairwise_map.mpr hsubSorted
  · intro g hg
    rw [hout] at hg
    rcases List.mem_map.mp hg with ⟨e, he, hge⟩
    have hm : (e.1, e.2) ∈ m := hsl.subset he
    rcases build_mem_char hb hm with ⟨hml, _, _⟩
    rw [← hge]
    show e.2.2.Sublist lines
    rw [hml]
    exact List.filter_sublist _

/-- Witness for C7: two leaves arrive in reverse order in the file; the
output is sorted by leaf name, members keep file order, the writer
flattens them. -/
theorem C7_output_ordering_witness :
    (([((1 : Nat), [("c;b 1").toList]),
       ((2 : Nat), [("a;d 2").toList])].map frameOf).Pairwise
      (fun a b => lexLt a b = true)) ∧
    (∀ g ∈ [((1 : Nat), [("c;b 1").toList]),
       ((2 : Nat), [("a;d 2").toList])],
      g.2.Sublist [("c;b 1").toList, ("a;d 2").toList]) ∧
    write_filtered_stack_to_file [((1 : Nat), [("c;b 1").toList]),
        ((2 : Nat), [("a;d 2").toList])] =
      ([((1 : Nat), [("c;b 1").toList]),
        ((2 : Nat), [("a;d 2").toList])].map (fun g => g.2)).flatten :=
  @C7_output_ordering Unit noRegex noMatch
    [("c;b 1").toList, ("a;d 2").toList]
    [(("b").toList, ((1 : Nat), [("c;b 1").toList])),
     (("d").toList, ((2 : Nat), [("a;d 2").toList]))]
    0 [] [((1 : Nat), [("c;b 1").toList]), ((2 : Nat), [("a;d 2").toList])]
    (by decide) (by with_unfolding_all decide)

/-- C8: a trailing count token that fails to parse as an integer, meaning
atoi consumes no digit after the optional whitespace and sign, yields
count 0: the parser returns zero instead of failing the run. -/
theorem C8_unparsable_count_zero {s : Line} {j : Nat}
    (hsp : findLastOf s ' ' = some j)
    (hfail : atoiFails (s.drop j) = true) :
    get_sample_count s = some 0 := by
  rw [get_sample_count, hsp]
  show some (((atoiChars (s.drop j)).emod (2 ^ 64)).toNat) = some 0
  rw [atoiChars_fails hfail]
  rfl

/-- Witness for C8 on a line whose count token is -x5: it contains a digit
but fails the atoi conversion, and the parsed count is zero. -/
theorem C8_unparsable_count_zero_witness :
    atoiFails ((("a;b -x5").toList).drop 3) = true ∧
    ('5' ∈ (("a;b -x5").toList).drop 3) ∧
    get_sample_count (("a;b -x5").toList) = some 0 :=
  ⟨by decide, by decide,
   @C8_unparsable_count_zero (("a;b -x5").toList) 3 (by decide) (by decide)⟩

/-- C9: every retained group's total equals the sum of its member counts,
the members are exactly the input lines sharing the leaf (so output sums
per retained leaf equal the input sums restricted to the retained set),
and for well-formed lines the invariant persists through truncation at
every depth limit. -/
theorem C9_total_invariant {R : Type} {compile : Line → Except String R}
    {rmatch : R → Line → Bool} {lines : List Line} {m : List Entry}
    {cutoff : ℚ} {regexes : List Line} {out : List LeafGroup}
    (hb : build_stack_map lines = .ok m)
    (hf : filter_stack compile rmatch m cutoff regexes = .ok out)
    (hwf : ∀ l ∈ lines, wfLine l = true) :
    (∀ g ∈ out, g.1 = (g.2.map countOf).sum) ∧
    (∀ g ∈ out, ∃ k, g.2 = leafLines k lines ∧
      g.1 = ((leafLines k lines).map countOf).sum) ∧
    (∀ stack_limit : Nat, ∀ g ∈ shrink_to_stack_limit out stack_limit,
      g.1 = (g.2.map countOf).sum) := by
  rw [filter_stack] at hf
  rcases filterGo_sub hf with ⟨sub, hsl, hout, _⟩
  have hchar : ∀ e ∈ sub, e.2.2 = leafLines e.1 lines ∧
      e.2.1 = (e.2.2.map countOf).sum ∧ e.2.2 ≠ [] :=
    fun e he => build_mem_char hb (show (e.1, e.2) ∈ m from hsl.subset he)
  have h1 : ∀ g ∈ out, g.1 = (g.2.map countOf).sum := by
    intro g hg
    rw [hout] at hg
    rcases List.mem_map.mp hg with ⟨e, he, hge⟩
    rw [← hge]
    exact (hchar e he).2.1
  have h2 : ∀ g ∈ out, ∃ k, g.2 = leafLines k lines ∧
      g.1 = ((leafLines k lines).map countOf).sum := by
    intro g hg
    rw [hout] at hg
    rcases List.mem_map.mp hg with ⟨e, he, hge⟩
    rcases hchar e he with ⟨hml, htt, _⟩
    refine ⟨e.1, by rw [← hge]; exact hml, ?_⟩
    rw [← hge, htt, hml]
  refine ⟨h1, h2, ?_⟩
  intro stack_limit g hg
  by_cases hl : stack_limit = 0
  · rw [hl, shrink_to_stack_limit, if_pos rfl] at hg
    exact h1 g hg
  · rw [shrink_to_stack_limit, if_neg hl] at hg
    rcases List.mem_map.mp hg with ⟨g0, hg0, hgg⟩
    rcases h2 g0 hg0 with ⟨k, hml, _⟩
    have hwfm : ∀ l ∈ g0.2, wfLine l = true := by
      intro l hl2
      rw [hml] at hl2
      exact hwf l (leafLines_mem hl2).1
    rw [← hgg]
    show g0.1 = ((g0.2.map (shrinkLine stack_limit)).map countOf).sum
    rw [List.map_map]
    have hcong : g0.2.map (countOf ∘ shrinkLine stack_limit) =
        g0.2.map countOf := by
      apply List.map_congr_left
      intro l hl2
      show countOf (shrinkLine stack_limit l) = countOf l
      rw [countOf, countOf, shrinkLine_count hl (hwfm l hl2)]
    rw [hcong]
    exact h1 g0 hg0

/-- Witness for C9 on two lines sharing the leaf frame b, retained and
truncated with limit 1. -/
theorem C9_total_invariant_witness :
    (∀ g ∈ [((7 : Nat), [("a;b 3").toList, ("c;b 4").toList])],
      g.1 = (g.2.map countOf).sum) ∧
    (∀ g ∈ [((7 : Nat), [("a;b 3").toList, ("c;b 4").toList])],
      ∃ k, g.2 = leafLines k [("a;b 3").toList, ("c;b 4").toList] ∧
        g.1 = ((leafLines k [("a;b 3").toList, ("c;b 4").toList]).map
          countOf).sum) ∧
    (∀ stack_limit : Nat, ∀ g ∈ shrink_to_stack_limit
        [((7 : Nat), [("a;b 3").toList, ("c;b 4").toList])] stack_limit,
      g.1 = (g.2.map countOf).sum) :=
  @C9_total_invariant Unit noRegex noMatch
    [("a;b 3").toList, ("c;b 4").toList]
    [(("b").toList, ((7 : Nat), [("a;b 3").toList, ("c;b 4").toList]))]
    0 [] [((7 : Nat), [("a;b 3").toList, ("c;b 4").toList])]
    (by decide) (by with_unfolding_all decide) (by decide)

/-- C10: a line without a space makes the count extraction signal the
out-of-range error instead of returning a value, and the run terminates
through the top-level handler with exit code 1. -/
theorem C10_no_space_aborts {R : Type} {compile : Line → Except String R}
    {rmatch : R → Line → Bool} {lines : List Line} {cutoff : ℚ}
    {stack_limit : Nat} {regexes : List Line} {l : Line}
    (hmem : l ∈ lines) (hns : findLastOf l ' ' = none) :
    get_sample_count l = none ∧
    mainExitCode compile rmatch lines cutoff stack_limit regexes = 1 := by
  have hgc : get_sample_count l = none := by rw [get_sample_count, hns]
  refine ⟨hgc, ?_⟩
  rcases @buildGo_error lines [] l hmem hgc with ⟨e, he⟩
  have hrun : runPipeline compile rmatch lines cutoff stack_limit regexes =
      .error e := by
    rw [runPipeline, build_stack_map, he]
  rw [mainExitCode, hrun]

/-- Witness for C10 on the single spaceless line abc. -/
theorem C10_no_space_aborts_witness :
    get_sample_count (("abc").toList) = none ∧
    mainExitCode noRegex noMatch [("abc").toList] (1/2) 0 [] = 1 :=
  @C10_no_space_aborts Unit noRegex noMatch [("abc").toList] (1/2) 0 []
    (("abc").toList) (by decide) (by decide)
